import Mathlib

set_option linter.unusedSectionVars false
set_option linter.unnecessarySimpa false

/-
Verification of the sync-gmap repository: a generic wrapper (`SyncMap[K, V]`
in src/mimics.go and the helper methods in src/unnamed/part_001) around the
Go standard library's `sync.Map`.

The wrapper delegates every operation to the embedded `sync.Map`; the engine
itself lives in the Go standard library, outside this repository.  The claims
under verification all concern single-caller (sequential) behaviour, so the
embedded `sync.Map` is modelled by its documented sequential contract: a
finite mapping from keys to values, here an association list looked up by
first match, whose operations (`Load`, `Store`, `LoadOrStore`,
`LoadAndDelete`, `Delete`, `Swap`, `CompareAndSwap`, `CompareAndDelete`,
`Range`) have ordinary map semantics.  The wrapper code itself — including
its Go type assertions `x.(V)`, which panic when `x` is the nil interface —
is translated statement by statement from src/.

A Go method that mutates its receiver becomes a Lean function returning the
new state.  A Go type assertion on a possibly-nil `any` value becomes a
`match` on `Option V`; the panicking branch of the sole unguarded assertion
(in `Swap`) is modelled by an `Option` result where `none` means the call
panics instead of returning.
-/

namespace GoSync

variable {K V : Type} [DecidableEq K]

/-- Sequential state of a Go `sync.Map` holding keys `K` and values `V`:
an association list of bindings, looked up by first match.  The operations
below keep keys distinct when starting from the empty map. -/
abbrev GoMap (K V : Type) := List (K × V)

/-- Sequential semantics of `sync.Map.Load`: the value stored for `key`
(`none` models Go's `(nil, false)` result). -/
def Load : GoMap K V → K → Option V
  | [], _ => none
  | (k, v) :: rest, key => if k = key then some v else Load rest key

/-- Sequential semantics of `sync.Map.Store`: replace the binding for `key`
in place if present, otherwise append a new binding. -/
def Store : GoMap K V → K → V → GoMap K V
  | [], key, value => [(key, value)]
  | (k, v) :: rest, key, value =>
    if k = key then (k, value) :: rest else (k, v) :: Store rest key value

/-- Sequential semantics of `sync.Map.Delete` (and of `LoadAndDelete`'s
removal): drop every binding for `key`. -/
def Delete : GoMap K V → K → GoMap K V
  | [], _ => []
  | (k, v) :: rest, key =>
    if k = key then Delete rest key else (k, v) :: Delete rest key

/-- Sequential semantics of `sync.Map.LoadOrStore`: return the existing
value with `true`, or store the given value and return it with `false`. -/
def LoadOrStore (m : GoMap K V) (key : K) (value : V) :
    (V × Bool) × GoMap K V :=
  match Load m key with
  | some result => ((result, true), m)
  | none => ((value, false), Store m key value)

/-- Sequential semantics of `sync.Map.LoadAndDelete`: remove the binding for
`key` and return the previous value if any (`none` models `(nil, false)`). -/
def LoadAndDelete (m : GoMap K V) (key : K) : Option V × GoMap K V :=
  match Load m key with
  | some v => (some v, Delete m key)
  | none => (none, m)

/-- Sequential semantics of `sync.Map.Swap`: store the new value and return
the previous one if any (`none` models the nil interface returned when the
key was absent). -/
def Swap (m : GoMap K V) (key : K) (value : V) : Option V × GoMap K V :=
  (Load m key, Store m key value)

/-- Sequential semantics of `sync.Map.CompareAndSwap`: replace the value for
`key` by `new` exactly when the current value equals `old`. -/
def CompareAndSwap [DecidableEq V] (m : GoMap K V) (key : K) (old new : V) :
    Bool × GoMap K V :=
  if Load m key = some old then (true, Store m key new) else (false, m)

/-- Sequential semantics of `sync.Map.CompareAndDelete`: delete the binding
for `key` exactly when the current value equals `old`. -/
def CompareAndDelete [DecidableEq V] (m : GoMap K V) (key : K) (old : V) :
    Bool × GoMap K V :=
  if Load m key = some old then (true, Delete m key) else (false, m)

/-- Sequential semantics of `sync.Map.Range` with a stateful callback: the
entries present when `Range` starts are visited in order, the callback
threads a state and may stop the iteration by returning `false`.  This is
the form used by the repository's `Len`, `Clear`, `Clone` and `Merge`, whose
callbacks mutate an accumulator or the map itself. -/
def RangeFold {S : Type} : GoMap K V → S → (S → K → V → S × Bool) → S
  | [], s, _ => s
  | (k, v) :: rest, s, f =>
    let r := f s k v
    if r.2 then RangeFold rest r.1 f else r.1

/-- The sequence of callback invocations performed by `sync.Map.Range` with a
pure callback `f`: entries are visited in order and the entry on which `f`
returns `false` is the last one visited. -/
def RangeVisited : GoMap K V → (K → V → Bool) → GoMap K V
  | [], _ => []
  | (k, v) :: rest, f =>
    if f k v then (k, v) :: RangeVisited rest f else [(k, v)]

end GoSync

namespace Syncgmap

open GoSync

/-- The repository's `SyncMap[K comparable, V any]` (src/mimics.go): a struct
embedding one `sync.Map`, here its sequential state. -/
structure SyncMap (K V : Type) where
  Map : GoMap K V

variable {K V : Type} [DecidableEq K]

/-- src/mimics.go `Load`: delegate to `sync.Map.Load`; on hit return
`(result.(V), true)`, on miss return the zero value of `V` with `false`. -/
def SyncMap.Load [Inhabited V] (m : SyncMap K V) (key : K) : V × Bool :=
  match GoSync.Load m.Map key with
  | some result => (result, true)
  | none => (default, false)

/-- src/mimics.go `Store`: delegate to `sync.Map.Store`. -/
def SyncMap.Store (m : SyncMap K V) (key : K) (value : V) : SyncMap K V :=
  ⟨GoSync.Store m.Map key value⟩

/-- src/mimics.go `LoadOrStore`: delegate to `sync.Map.LoadOrStore`; on
`ok` return `(result.(V), true)`, otherwise `(value, false)`. -/
def SyncMap.LoadOrStore (m : SyncMap K V) (key : K) (value : V) :
    (V × Bool) × SyncMap K V :=
  let r := GoSync.LoadOrStore m.Map key value
  if r.1.2 then ((r.1.1, true), ⟨r.2⟩) else ((value, false), ⟨r.2⟩)

/-- src/mimics.go `LoadAndDelete`: delegate to `sync.Map.LoadAndDelete`; on
`ok` return `(item.(V), true)`, otherwise the zero value with `false`. -/
def SyncMap.LoadAndDelete [Inhabited V] (m : SyncMap K V) (key : K) :
    (V × Bool) × SyncMap K V :=
  let r := GoSync.LoadAndDelete m.Map key
  match r.1 with
  | some item => ((item, true), ⟨r.2⟩)
  | none => ((default, false), ⟨r.2⟩)

/-- src/mimics.go `Delete`: delegate to `sync.Map.Delete`. -/
def SyncMap.Delete (m : SyncMap K V) (key : K) : SyncMap K V :=
  ⟨GoSync.Delete m.Map key⟩

/-- src/mimics.go `Swap`: delegate to `sync.Map.Swap`, then return
`previous1.(V), loaded`.  The type assertion `previous1.(V)` is NOT guarded
by `loaded`: when the key was absent, `previous1` is the nil interface and
the assertion panics.  The panic is modelled by a `none` result; `some
(previous, loaded)` is a normal return. -/
def SyncMap.Swap (m : SyncMap K V) (key : K) (value : V) :
    Option (V × Bool) × SyncMap K V :=
  let r := GoSync.Swap m.Map key value
  (match r.1 with
   | some previous => some (previous, true)
   | none => none,
   ⟨r.2⟩)

/-- src/mimics.go `CompareAndDelete` (free function): delegate to
`sync.Map.CompareAndDelete`. -/
def CompareAndDelete [DecidableEq V] (m : SyncMap K V) (key : K) (old : V) :
    Bool × SyncMap K V :=
  let r := GoSync.CompareAndDelete m.Map key old
  (r.1, ⟨r.2⟩)

/-- src/mimics.go `CompareAndSwap` (free function): delegate to
`sync.Map.CompareAndSwap`. -/
def CompareAndSwap [DecidableEq V] (m : SyncMap K V) (key : K)
    (old new : V) : Bool × SyncMap K V :=
  let r := GoSync.CompareAndSwap m.Map key old new
  (r.1, ⟨r.2⟩)

/-- src/mimics.go `Range` with a pure callback: the sequence of
`(key, value)` pairs the callback is invoked on (the wrapper only unwraps
the `any` arguments before calling `f`). -/
def SyncMap.RangeVisited (m : SyncMap K V) (f : K → V → Bool) : GoMap K V :=
  GoSync.RangeVisited m.Map f

/-- src/unnamed/part_001 `Len`: run `sync.Map.Range` with a callback that
increments a counter and always continues. -/
def SyncMap.Len (m : SyncMap K V) : Nat :=
  GoSync.RangeFold m.Map 0 (fun len _ _ => (len + 1, true))

/-- src/unnamed/part_001 `Clear`: run `sync.Map.Range` with a callback that
deletes each visited key from the map and always continues. -/
def SyncMap.Clear (m : SyncMap K V) : SyncMap K V :=
  ⟨GoSync.RangeFold m.Map m.Map (fun cur key _ => (GoSync.Delete cur key, true))⟩

/-- src/unnamed/part_001 `Clone`: make a fresh empty `SyncMap` and run
`Range` over the source, storing each visited pair into the clone. -/
def SyncMap.Clone (m : SyncMap K V) : SyncMap K V :=
  GoSync.RangeFold m.Map (SyncMap.mk [])
    (fun clone key value => (clone.Store key value, true))

/-- src/unnamed/part_001 `Merge`: if `other` is nil return at once;
otherwise run `Range` over `other`, storing each visited pair into the
receiver.  The nil pointer is modelled by `Option`. -/
def SyncMap.Merge (m : SyncMap K V) (other : Option (SyncMap K V)) :
    SyncMap K V :=
  match other with
  | none => m
  | some o =>
    GoSync.RangeFold o.Map m (fun acc key value => (acc.Store key value, true))

end Syncgmap

namespace GoSync

variable {K V : Type} [DecidableEq K]

@[simp] theorem Load_nil (key : K) : Load ([] : GoMap K V) key = none := rfl

theorem Load_cons (k : K) (v : V) (rest : GoMap K V) (key : K) :
    Load ((k, v) :: rest) key = if k = key then some v else Load rest key :=
  rfl

@[simp] theorem Load_Store_self (m : GoMap K V) (key : K) (value : V) :
    Load (Store m key value) key = some value := by
  induction m with
  | nil => simp [Store, Load]
  | cons p rest ih =>
    obtain ⟨k, v⟩ := p
    by_cases h : k = key
    · simp [Store, h, Load]
    · simp [Store, h, Load, ih]

theorem Load_Store_other (m : GoMap K V) (key : K) (value : V) (k' : K)
    (h : k' ≠ key) : Load (Store m key value) k' = Load m k' := by
  induction m with
  | nil => simp [Store, Load, Ne.symm h]
  | cons p rest ih =>
    obtain ⟨k, v⟩ := p
    by_cases hk : k = key
    · subst hk
      simp [Store, Load, Ne.symm h]
    · simp only [Store, if_neg hk, Load_cons, ih]

@[simp] theorem Load_Delete_self (m : GoMap K V) (key : K) :
    Load (Delete m key) key = none := by
  induction m with
  | nil => simp [Delete]
  | cons p rest ih =>
    obtain ⟨k, v⟩ := p
    by_cases h : k = key
    · simp [Delete, h, ih]
    · simp [Delete, h, Load, ih]

theorem Load_Delete_other (m : GoMap K V) (key : K) (k' : K)
    (h : k' ≠ key) : Load (Delete m key) k' = Load m k' := by
  induction m with
  | nil => simp [Delete]
  | cons p rest ih =>
    obtain ⟨k, v⟩ := p
    by_cases hk : k = key
    · subst hk
      simp [Delete, Load, Ne.symm h, ih]
    · simp [Delete, hk, Load, ih]

theorem Load_eq_none_iff (m : GoMap K V) (key : K) :
    Load m key = none ↔ key ∉ m.map Prod.fst := by
  induction m with
  | nil => simp
  | cons p rest ih =>
    obtain ⟨k, v⟩ := p
    by_cases h : k = key
    · simp [Load, h]
    · simp [Load, h, ih, Ne.symm h]

theorem Delete_of_absent (m : GoMap K V) (key : K)
    (h : Load m key = none) : Delete m key = m := by
  induction m with
  | nil => rfl
  | cons p rest ih =>
    obtain ⟨k, v⟩ := p
    rw [Load_cons] at h
    by_cases hk : k = key
    · simp [hk] at h
    · simp only [Delete, if_neg hk]
      rw [ih (by simpa [hk] using h)]

theorem Delete_eq_filter (m : GoMap K V) (key : K) :
    Delete m key = m.filter (fun p => decide (p.1 ≠ key)) := by
  induction m with
  | nil => rfl
  | cons p rest ih =>
    obtain ⟨k, v⟩ := p
    by_cases hk : k = key
    · simp [Delete, hk, ih]
    · simp [Delete, hk, ih, List.filter_cons]

theorem RangeFold_count (iter : GoMap K V) (n : Nat) :
    RangeFold iter n (fun len _ _ => (len + 1, true)) = n + iter.length := by
  induction iter generalizing n with
  | nil => simp [RangeFold]
  | cons p rest ih =>
    obtain ⟨k, v⟩ := p
    simp [RangeFold, ih]
    omega

theorem RangeFold_delete (iter cur : GoMap K V) :
    RangeFold iter cur (fun cur key _ => (Delete cur key, true)) =
      cur.filter (fun p => decide (p.1 ∉ iter.map Prod.fst)) := by
  induction iter generalizing cur with
  | nil => simp [RangeFold]
  | cons p rest ih =>
    obtain ⟨k, v⟩ := p
    have step :
        RangeFold ((k, v) :: rest) cur
            (fun cur key _ => (Delete cur key, true)) =
          RangeFold rest (Delete cur k)
            (fun cur key _ => (Delete cur key, true)) := by
      simp [RangeFold]
    rw [step, ih, Delete_eq_filter, List.filter_filter]
    apply List.filter_congr
    intro q _
    simp only [List.map_cons, List.mem_cons, not_or]
    by_cases h1 : q.1 = k <;> by_cases h2 : q.1 ∈ rest.map Prod.fst <;>
      simp [h1, h2]

theorem RangeFold_delete_self (l : GoMap K V) :
    RangeFold l l (fun cur key _ => (Delete cur key, true)) = [] := by
  rw [RangeFold_delete]
  rw [List.filter_eq_nil_iff]
  intro p hp
  simp [List.mem_map_of_mem Prod.fst hp]

end GoSync

namespace GoSync

variable {K V : Type} [DecidableEq K]

theorem RangeVisited_sublist (m : GoMap K V) (f : K → V → Bool) :
    List.Sublist (RangeVisited m f) m := by
  induction m with
  | nil => simp [RangeVisited]
  | cons q rest ih =>
    obtain ⟨k, v⟩ := q
    by_cases hkv : f k v = true
    · simpa [RangeVisited, hkv] using List.Sublist.cons₂ (k, v) ih
    · simpa [RangeVisited, hkv] using List.Sublist.cons₂ (k, v) (List.nil_sublist rest)

theorem RangeVisited_false_last (m : GoMap K V) (f : K → V → Bool) :
    ∀ p ∈ RangeVisited m f, f p.1 p.2 = false →
      (RangeVisited m f).getLast? = some p := by
  induction m with
  | nil =>
    intro p hp
    simp [RangeVisited] at hp
  | cons q rest ih =>
    obtain ⟨k, v⟩ := q
    intro p hp hf
    by_cases hkv : f k v = true
    · rw [RangeVisited, if_pos hkv] at hp ⊢
      rcases List.mem_cons.mp hp with h | h
      · subst h
        rw [hkv] at hf
        cases hf
      · have hlast := ih p h hf
        cases hvr : RangeVisited rest f with
        | nil =>
          rw [hvr] at h
          cases h
        | cons a l =>
          rw [hvr] at hlast
          rw [List.getLast?_cons_cons]
          exact hlast
    · rw [RangeVisited, if_neg hkv] at hp ⊢
      rcases List.mem_cons.mp hp with h | h
      · subst h
        rfl
      · cases h

end GoSync

namespace Syncgmap

open GoSync

variable {K V : Type} [DecidableEq K]

theorem Map_Store (m : SyncMap K V) (key : K) (value : V) :
    (m.Store key value).Map = GoSync.Store m.Map key value := rfl

theorem Load_RangeFold_store (iter : GoMap K V) (acc : SyncMap K V)
    (hiter : (iter.map Prod.fst).Nodup) (k : K) :
    GoSync.Load (GoSync.RangeFold iter acc
        (fun clone key value => (clone.Store key value, true))).Map k =
      if k ∈ iter.map Prod.fst then GoSync.Load iter k
      else GoSync.Load acc.Map k := by
  induction iter generalizing acc with
  | nil => simp [RangeFold]
  | cons q rest ih =>
    obtain ⟨k1, v1⟩ := q
    rw [List.map_cons, List.nodup_cons] at hiter
    have step :
        GoSync.RangeFold ((k1, v1) :: rest) acc
            (fun clone key value => (clone.Store key value, true)) =
          GoSync.RangeFold rest (acc.Store k1 v1)
            (fun clone key value => (clone.Store key value, true)) := by
      simp [RangeFold]
    rw [step, ih (acc.Store k1 v1) hiter.2]
    by_cases hk : k ∈ rest.map Prod.fst
    · have hne : k1 ≠ k := by
        intro he
        exact hiter.1 (he ▸ hk)
      simp [hk, Load_cons, hne]
    · by_cases hkk : k = k1
      · subst hkk
        simp [hk, Load_cons, Map_Store]
      · simp [hk, hkk, Load_cons, Ne.symm hkk, Map_Store,
          Load_Store_other _ _ _ _ hkk]

end Syncgmap

namespace Syncgmap

open GoSync

variable {K V : Type} [DecidableEq K]

/-- C1 (code bug): at the failing input — the empty map, `Swap(0, 1)` — the
call does not complete normally.  `sync.Map.Swap` reports `loaded = false`
with a nil previous value, and the wrapper's unguarded type assertion
`previous1.(V)` panics on that nil interface, modelled here by the `none`
result. -/
theorem C1_swap_panics_on_absent_key :
    ((SyncMap.mk [] : SyncMap Nat Nat).Swap 0 1).1 = none := rfl

/-- C2: after `Store(k, v)` completes, a subsequent `Load(k)` returns
`(v, true)`. -/
theorem C2_store_then_load [Inhabited V] (m : SyncMap K V) (k : K) (v : V) :
    (m.Store k v).Load k = (v, true) := by
  simp [SyncMap.Load, Map_Store, Load_Store_self]

/-- C3: `CompareAndSwap(k, old, new)` returns true exactly when `k` is
present with stored value `old`; on success the stored value becomes `new`
and every other key is untouched; when it returns false the whole map is
unchanged. -/
theorem C3_compare_and_swap_spec [DecidableEq V] (m : SyncMap K V)
    (key : K) (old new : V) :
    ((CompareAndSwap m key old new).1 = true ↔
       GoSync.Load m.Map key = some old) ∧
    (GoSync.Load m.Map key = some old →
       GoSync.Load (CompareAndSwap m key old new).2.Map key = some new ∧
       ∀ k, k ≠ key →
         GoSync.Load (CompareAndSwap m key old new).2.Map k =
           GoSync.Load m.Map k) ∧
    ((CompareAndSwap m key old new).1 = false →
       (CompareAndSwap m key old new).2 = m) := by
  by_cases h : GoSync.Load m.Map key = some old
  · refine ⟨by simp [CompareAndSwap, GoSync.CompareAndSwap, h],
      fun _ => ⟨?_, ?_⟩, fun hf => ?_⟩
    · simp [CompareAndSwap, GoSync.CompareAndSwap, h, Load_Store_self]
    · intro k hk
      simp [CompareAndSwap, GoSync.CompareAndSwap, h,
        Load_Store_other _ _ _ _ hk]
    · simp [CompareAndSwap, GoSync.CompareAndSwap, h] at hf
  · exact ⟨by simp [CompareAndSwap, GoSync.CompareAndSwap, h],
      fun hc => absurd hc h,
      fun _ => by simp [CompareAndSwap, GoSync.CompareAndSwap, h]⟩

/-- C3 witness: on the map holding 1 ↦ 2, `CompareAndSwap(1, 2, 20)`
succeeds and the stored value becomes 20. -/
theorem C3_compare_and_swap_witness :
    (CompareAndSwap (SyncMap.mk [(1, 2)] : SyncMap Nat Nat) 1 2 20).1 = true ∧
    GoSync.Load
      (CompareAndSwap (SyncMap.mk [(1, 2)] : SyncMap Nat Nat) 1 2 20).2.Map 1
      = some 20 := by
  have h := C3_compare_and_swap_spec (SyncMap.mk [(1, 2)] : SyncMap Nat Nat) 1 2 20
  exact ⟨h.1.mpr (by decide), (h.2.1 (by decide)).1⟩

/-- C4: if `k` is present with stored value `v0`, `LoadOrStore(k, v)`
returns `(v0, true)` and leaves the map unchanged; if `k` is absent it
stores `v` under `k` and returns `(v, false)`. -/
theorem C4_load_or_store_spec (m : SyncMap K V) (key : K) (value : V) :
    (∀ v0, GoSync.Load m.Map key = some v0 →
       m.LoadOrStore key value = ((v0, true), m)) ∧
    (GoSync.Load m.Map key = none →
       (m.LoadOrStore key value).1 = (value, false) ∧
       GoSync.Load (m.LoadOrStore key value).2.Map key = some value) := by
  constructor
  · intro v0 h
    simp [SyncMap.LoadOrStore, GoSync.LoadOrStore, h]
  · intro h
    simp [SyncMap.LoadOrStore, GoSync.LoadOrStore, h, Load_Store_self]

/-- C4 witness: on the map holding 1 ↦ 1, `LoadOrStore(1, 99)` returns
`(1, true)` and leaves the map unchanged. -/
theorem C4_load_or_store_witness :
    (SyncMap.mk [(1, 1)] : SyncMap Nat Nat).LoadOrStore 1 99
      = ((1, true), SyncMap.mk [(1, 1)]) :=
  (C4_load_or_store_spec (SyncMap.mk [(1, 1)] : SyncMap Nat Nat) 1 99).1 1
    (by decide)

/-- C5: if `k` is present with stored value `v`, `LoadAndDelete(k)` returns
`(v, true)` and a subsequent `Load(k)` reports not-found; if `k` is absent
it returns `loaded = false` and leaves the map unchanged. -/
theorem C5_load_and_delete_spec [Inhabited V] (m : SyncMap K V) (key : K) :
    (∀ v, GoSync.Load m.Map key = some v →
       (m.LoadAndDelete key).1 = (v, true) ∧
       (m.LoadAndDelete key).2.Load key = (default, false)) ∧
    (GoSync.Load m.Map key = none →
       (m.LoadAndDelete key).1.2 = false ∧ (m.LoadAndDelete key).2 = m) := by
  constructor
  · intro v h
    simp [SyncMap.LoadAndDelete, GoSync.LoadAndDelete, h, SyncMap.Load,
      Load_Delete_self]
  · intro h
    simp [SyncMap.LoadAndDelete, GoSync.LoadAndDelete, h]

/-- C5 witness: on the map holding 1 ↦ 1, `LoadAndDelete(1)` returns
`(1, true)` and a subsequent `Load(1)` returns `(0, false)`. -/
theorem C5_load_and_delete_witness :
    ((SyncMap.mk [(1, 1)] : SyncMap Nat Nat).LoadAndDelete 1).1 = (1, true) ∧
    ((SyncMap.mk [(1, 1)] : SyncMap Nat Nat).LoadAndDelete 1).2.Load 1
      = (0, false) := by
  have h :=
    (C5_load_and_delete_spec (SyncMap.mk [(1, 1)] : SyncMap Nat Nat) 1).1 1
      (by decide)
  exact ⟨h.1, h.2⟩

/-- C6: `CompareAndDelete(m, k, old)` returns false when `k` has no current
value; it never inserts a new key; it deletes the entry for `k` exactly when
`k` is present with stored value `old`, and otherwise leaves the map
unchanged. -/
theorem C6_compare_and_delete_spec [DecidableEq V] (m : SyncMap K V)
    (key : K) (old : V) :
    (GoSync.Load m.Map key = none → (CompareAndDelete m key old).1 = false) ∧
    (∀ k, GoSync.Load m.Map k = none →
       GoSync.Load (CompareAndDelete m key old).2.Map k = none) ∧
    ((CompareAndDelete m key old).1 = true ↔
       GoSync.Load m.Map key = some old) ∧
    ((CompareAndDelete m key old).1 = true →
       GoSync.Load (CompareAndDelete m key old).2.Map key = none) ∧
    ((CompareAndDelete m key old).1 = false →
       (CompareAndDelete m key old).2 = m) := by
  by_cases h : GoSync.Load m.Map key = some old
  · refine ⟨?_, ?_, ?_, ?_, ?_⟩
    · intro hn
      rw [hn] at h
      simp at h
    · intro k hk
      by_cases hkey : k = key
      · subst hkey
        simp [CompareAndDelete, GoSync.CompareAndDelete, h, Load_Delete_self]
      · simp [CompareAndDelete, GoSync.CompareAndDelete, h,
          Load_Delete_other _ _ _ hkey, hk]
    · simp [CompareAndDelete, GoSync.CompareAndDelete, h]
    · intro _
      simp [CompareAndDelete, GoSync.CompareAndDelete, h, Load_Delete_self]
    · intro hf
      simp [CompareAndDelete, GoSync.CompareAndDelete, h] at hf
  · exact ⟨fun _ => by simp [CompareAndDelete, GoSync.CompareAndDelete, h],
      fun k hk => by simp [CompareAndDelete, GoSync.CompareAndDelete, h, hk],
      by simp [CompareAndDelete, GoSync.CompareAndDelete, h],
      fun ht => by simp [CompareAndDelete, GoSync.CompareAndDelete, h] at ht,
      fun _ => by simp [CompareAndDelete, GoSync.CompareAndDelete, h]⟩

/-- C6 witness: on the map holding 1 ↦ 5, `CompareAndDelete(1, 5)` returns
true and the entry for 1 is gone. -/
theorem C6_compare_and_delete_witness :
    (CompareAndDelete (SyncMap.mk [(1, 5)] : SyncMap Nat Nat) 1 5).1 = true ∧
    GoSync.Load
      (CompareAndDelete (SyncMap.mk [(1, 5)] : SyncMap Nat Nat) 1 5).2.Map 1
      = none := by
  have h := C6_compare_and_delete_spec (SyncMap.mk [(1, 5)] : SyncMap Nat Nat) 1 5
  have ht := h.2.2.1.mpr (by decide)
  exact ⟨ht, h.2.2.2.1 ht⟩

/-- C7: `Range` invokes the callback at most once per key present at call
time (each visited pair is an entry of the map, and with distinct map keys
the visited keys are distinct), and the entry on which the callback returns
false is the last one visited. -/
theorem C7_range_spec (m : SyncMap K V) (f : K → V → Bool)
    (h : (m.Map.map Prod.fst).Nodup) :
    ((m.RangeVisited f).map Prod.fst).Nodup ∧
    (∀ p ∈ m.RangeVisited f, p ∈ m.Map) ∧
    (∀ p ∈ m.RangeVisited f, f p.1 p.2 = false →
       (m.RangeVisited f).getLast? = some p) := by
  refine ⟨?_, ?_, ?_⟩
  · exact List.Nodup.sublist
      (List.Sublist.map Prod.fst (RangeVisited_sublist m.Map f)) h
  · exact fun p hp => (RangeVisited_sublist m.Map f).subset hp
  · exact RangeVisited_false_last m.Map f

/-- C7 witness: on the map 1 ↦ 10, 2 ↦ 20, 3 ↦ 30 with a callback that
continues only while the key is below 2, the visited keys are distinct and
the pair on which the callback returned false, (2, 20), is the last one
visited. -/
theorem C7_range_witness :
    (((SyncMap.mk [(1, 10), (2, 20), (3, 30)] : SyncMap Nat Nat).RangeVisited
        (fun k _ => decide (k < 2))).map Prod.fst).Nodup ∧
    ((SyncMap.mk [(1, 10), (2, 20), (3, 30)] : SyncMap Nat Nat).RangeVisited
        (fun k _ => decide (k < 2))).getLast? = some (2, 20) := by
  have h := C7_range_spec
    (SyncMap.mk [(1, 10), (2, 20), (3, 30)] : SyncMap Nat Nat)
    (fun k _ => decide (k < 2)) (by decide)
  exact ⟨h.1, h.2.2 (2, 20) (by decide) (by decide)⟩

/-- C8: after `Clear()` completes, `Len()` returns 0: the clearing fold
deletes every key of the iterated list from the map, leaving it empty. -/
theorem C8_clear_len (m : SyncMap K V) : m.Clear.Len = 0 := by
  have hmap : m.Clear.Map = [] := RangeFold_delete_self m.Map
  simp [SyncMap.Len, hmap, RangeFold]

/-- C9: `Clone()` returns an instance holding the same key-value pairs as
the source, and storing into the clone changes neither the source's view of
any key nor the clone's other keys: the two instances share no state. -/
theorem C9_clone_spec [Inhabited V] (m : SyncMap K V)
    (h : (m.Map.map Prod.fst).Nodup) :
    (∀ k, m.Clone.Load k = m.Load k) ∧
    (∀ k v, (m.Clone.Store k v).Load k = (v, true)) ∧
    (∀ k v k', k' ≠ k → (m.Clone.Store k v).Load k' = m.Load k') := by
  have hload : ∀ k, GoSync.Load m.Clone.Map k = GoSync.Load m.Map k := by
    intro k
    have h2 : GoSync.Load m.Clone.Map k =
        if k ∈ m.Map.map Prod.fst then GoSync.Load m.Map k
        else GoSync.Load (SyncMap.mk [] : SyncMap K V).Map k :=
      Load_RangeFold_store m.Map (SyncMap.mk []) h k
    rw [h2]
    by_cases hk : k ∈ m.Map.map Prod.fst
    · rw [if_pos hk]
    · rw [if_neg hk, (Load_eq_none_iff m.Map k).mpr hk]
      rfl
  refine ⟨?_, ?_, ?_⟩
  · intro k
    simp [SyncMap.Load, hload]
  · intro k v
    simp [SyncMap.Load, Map_Store, Load_Store_self]
  · intro k v k' hk
    simp [SyncMap.Load, Map_Store, Load_Store_other _ _ _ _ hk, hload]

/-- C9 witness: cloning the map 1 ↦ 10, 2 ↦ 20 yields the same contents,
and storing 99 under key 1 in the clone leaves key 2 loading 20. -/
theorem C9_clone_witness :
    (SyncMap.mk [(1, 10), (2, 20)] : SyncMap Nat Nat).Clone.Load 1
      = (10, true) ∧
    ((SyncMap.mk [(1, 10), (2, 20)] : SyncMap Nat Nat).Clone.Store 1 99).Load 2
      = (20, true) := by
  have h := C9_clone_spec (SyncMap.mk [(1, 10), (2, 20)] : SyncMap Nat Nat)
    (by decide)
  constructor
  · rw [h.1 1]
    rfl
  · rw [h.2.2 1 99 2 (by decide)]
    rfl

/-- C10: `Merge` with an absent (nil) other map returns at once and leaves
the receiver completely unchanged. -/
theorem C10_merge_nil (m : SyncMap K V) : m.Merge none = m := rfl

end Syncgmap
